import Mathlib

/-!
Verification development for the Algolia / Kontent.ai webhook reconciler
(`src/functions/algolia-update-webhook.ts` and the shared typeguards).

The handler reconciles a search index with a content source: for each
changed item it queries the index for existing records, fetches the
current entity graph, decides eligibility, and applies one batch upsert
and one batch delete per webhook payload element.

External collaborators (the Algolia search index, the delivery client,
the projection helpers of `algoliaItem.ts`, which is not part of the
sources here) are modelled as oracles inside `Env`; the handler logic
itself is translated branch by branch from the TypeScript source.
The event trace produced below is the canonical sequential schedule of
the concurrent execution: it lists, in program order, every index query,
content fetch and index write the run performs.
-/

namespace AlgoliaWebhook

/-- The `system` object of a delivery item (`IContentItem.system`). -/
structure EntitySystem where
  id : String
  codename : String
  language : String
  type : String
deriving DecidableEq, Repr

/-- A content entity as returned by the delivery client.  `elements`
holds the element values keyed by element codename. -/
structure DeliverItem where
  system : EntitySystem
  elements : List (String × String)
deriving DecidableEq, Repr

/-- Modelled from the spec: an `IndexRecord` (`AlgoliaItem`), the
flattened search document, with `objectID`, `codename`,
`languageCodename` and the projected fields (the slug value and the
codenames of the inlined linked entities).  The shape file
`algoliaItem.ts` is not among the sources. -/
structure AlgoliaRecord where
  objectID : String
  codename : String
  language : String
  slug : Option String
  content : List String
deriving DecidableEq, Repr

/-- One changed item inside a webhook notification (`data.items` entry). -/
structure WebhookItem where
  codename : String
  language : String
deriving DecidableEq, Repr

/-- One element of the webhook payload array
(`IWebhookDeliveryResponse`): a project id and the changed items. -/
structure Notification where
  projectId : String
  items : List WebhookItem
deriving DecidableEq, Repr

/-- The parsed request body: either the legacy single-notification shape
or the new shape wrapping a list of notifications. -/
inductive WebhookBody where
  | legacy : Notification → WebhookBody
  | wrapped : List Notification → WebhookBody
deriving DecidableEq, Repr

/-- The query parameters of the request; a field is `none` when it is
absent or not a string. -/
structure RawParams where
  slug : Option String
  appId : Option String
  index : Option String
deriving DecidableEq, Repr

/-- The inbound HTTP request.  `body = none` models a missing body, and
`signatureHeaderPresent` models presence of the `x-kc-signature` header. -/
structure HttpRequest where
  httpMethod : String
  body : Option WebhookBody
  signatureHeaderPresent : Bool
  queryStringParameters : Option RawParams

/-- The environment of one run: configuration presence, signature
validity, the current index contents, and the two external oracles.
`searchFails c l` models the index search throwing for that query;
`fetch p c l = none` models the delivery fetch throwing or finding
nothing for codename `c` in language `l` of project `p`, and
`fetch p c l = some g` models a successful response whose item plus
linked items are `g`. -/
structure Env where
  kontentSecretPresent : Bool
  algoliaApiKeyPresent : Bool
  signatureValid : Bool
  indexState : List AlgoliaRecord
  searchFails : String → String → Bool
  fetch : String → String → String → Option (List DeliverItem)

/-- Embeds `areValidQueryParams` (with `hasStringProperty` from the
shared typeguards): the parameter object exists and `slug`, `appId` and
`index` are all present as strings. -/
def areValidQueryParams : Option RawParams → Bool
  | none => false
  | some v => v.slug.isSome && v.appId.isSome && v.index.isSome

/-- The `slug` query parameter (defined when `areValidQueryParams`). -/
def slugOf : Option RawParams → String
  | none => ""
  | some v => v.slug.getD ""

/-- Embeds `findAgoliaItems`: search the index for the records of one
codename and language, returning `[]` when the search throws.  The
search filter semantics is modelled from the spec: it selects the
records whose stored `codename` and `languageCodename` fields match the
target. -/
def findAgoliaItems (env : Env) (itemCodename languageCodename : String) :
    List AlgoliaRecord :=
  if env.searchFails itemCodename languageCodename then []
  else env.indexState.filter
    (fun r => r.codename == itemCodename && r.language == languageCodename)

/-- Lookup in a JavaScript `Map` built from an association list: the
last entry for a key wins. -/
def mapGet (m : List (String × DeliverItem)) (k : String) : Option DeliverItem :=
  (m.reverse.find? (fun p => p.1 == k)).map (fun p => p.2)

/-- Embeds `findDeliverItemWithChildrenByCodename`: fetch the item and
its linked items and key them by codename, returning the empty map when
the fetch throws (not found, network error, malformed data). -/
def findDeliverItemWithChildrenByCodename (env : Env)
    (projectId codename languageCodename : String) :
    List (String × DeliverItem) :=
  match env.fetch projectId codename languageCodename with
  | none => []
  | some items => items.map (fun i => (i.system.codename, i))

/-- Modelled from the spec: `canConvertToAlgoliaItem` of the missing
`algoliaItem.ts` holds exactly when the projection precondition is met,
i.e. the entity carries the slug element named by the query parameters. -/
def canConvertToAlgoliaItem (slug : String) (item : DeliverItem) : Bool :=
  (item.elements.find? (fun p => p.1 == slug)).isSome

/-- Modelled from the spec: `convertToAlgoliaItem` of the missing
`algoliaItem.ts` projects an entity and its linked entities into one
flat index record; the object identifier is the stable system id, and a
linked reference missing from the graph is absent data, not an error. -/
def convertToAlgoliaItem (allItems : List (String × DeliverItem))
    (slug : String) (item : DeliverItem) : AlgoliaRecord :=
  { objectID := item.system.id
    codename := item.system.codename
    language := item.system.language
    slug := (item.elements.find? (fun p => p.1 == slug)).map (fun p => p.2)
    content := allItems.map (fun p => p.1) }

/-- The per-existing-record / per-item outcome built inside the handler. -/
structure Action where
  objectIdsToRemove : List String
  recordsToReindex : List AlgoliaRecord
deriving DecidableEq, Repr

/-- One external call of a run, in the canonical sequential schedule. -/
inductive Event where
  | query : String → String → Event
  | fetch : String → String → String → Event
  | upsertBatch : List AlgoliaRecord → Event
  | deleteBatch : List String → Event
deriving DecidableEq, Repr

def Event.isUpsert : Event → Bool
  | .upsertBatch _ => true
  | _ => false

def Event.isDelete : Event → Bool
  | .deleteBatch _ => true
  | _ => false

def Event.isWrite (e : Event) : Bool := e.isUpsert || e.isDelete

def Event.isRead (e : Event) : Bool := !e.isWrite

/-- Embeds the body of the inner `map` of the handler (lines 112-150):
query the index for the item; when nothing is indexed, fetch the entity
graph once and classify it (type gate, then the projection
precondition); when records exist, fetch and classify per existing
record, scheduling removal when the entity is gone or type-gated and
re-projecting it otherwise (note: no projection precondition check on
this branch, exactly as in the source). -/
def processItemActions (env : Env) (slug projectId : String)
    (item : WebhookItem) : List Action :=
  let existing := findAgoliaItems env item.codename item.language
  if existing.isEmpty then
    let deliverItems :=
      findDeliverItemWithChildrenByCodename env projectId item.codename item.language
    match mapGet deliverItems item.codename with
    | none => [{ objectIdsToRemove := [], recordsToReindex := [] }]
    | some deliverItem =>
      if deliverItem.system.type != "article" && deliverItem.system.type != "product" then
        [{ objectIdsToRemove := [], recordsToReindex := [] }]
      else
        [{ objectIdsToRemove := []
           recordsToReindex :=
             if canConvertToAlgoliaItem slug deliverItem then
               [convertToAlgoliaItem deliverItems slug deliverItem]
             else [] }]
  else
    existing.map (fun i =>
      let deliverItems :=
        findDeliverItemWithChildrenByCodename env projectId i.codename i.language
      match mapGet deliverItems i.codename with
      | none => { objectIdsToRemove := [i.objectID], recordsToReindex := [] }
      | some deliverItem =>
        if deliverItem.system.type != "article" && deliverItem.system.type != "product" then
          { objectIdsToRemove := [i.objectID], recordsToReindex := [] }
        else
          { objectIdsToRemove := []
            recordsToReindex := [convertToAlgoliaItem deliverItems slug deliverItem] })

/-- The external calls the same inner `map` performs, in program order:
one index query, then one content fetch per branch (directly for the
item when nothing is indexed, else one per existing record). -/
def processItemEvents (env : Env) (projectId : String)
    (item : WebhookItem) : List Event :=
  let existing := findAgoliaItems env item.codename item.language
  Event.query item.codename item.language ::
    (if existing.isEmpty then [Event.fetch projectId item.codename item.language]
     else existing.map (fun i => Event.fetch projectId i.codename i.language))

/-- JavaScript `Map.set` on an association list: replace the value of an
existing key in place, otherwise append the new entry. -/
def mapUpsert (m : List (String × AlgoliaRecord)) (k : String)
    (v : AlgoliaRecord) : List (String × AlgoliaRecord) :=
  if m.any (fun p => p.1 == k) then
    m.map (fun p => if p.1 == k then (k, v) else p)
  else m ++ [(k, v)]

/-- Embeds `new Map(records.map(i => [i.codename, i])).values()`:
deduplicate by codename, last record for a codename wins, key order is
first appearance. -/
def dedupByCodename (records : List AlgoliaRecord) : List AlgoliaRecord :=
  (records.foldl (fun m r => mapUpsert m r.codename r) []).map (fun p => p.2)

/-- Embeds `[...new Set(ids)]`: drop duplicates keeping first
appearance order. -/
def dedupSet (l : List String) : List String :=
  l.foldl (fun acc s => if acc.contains s then acc else acc ++ [s]) []

/-- The merged mutation set of one webhook payload element. -/
structure MutationSet where
  recordsToUpsert : List AlgoliaRecord
  objectIdsToRemove : List String
deriving DecidableEq, Repr

/-- Embeds lines 111-156 of the handler: the per-item actions of one
payload element, flattened and merged into one deduplicated mutation
set. -/
def mutationsOf (env : Env) (slug : String) (n : Notification) : MutationSet :=
  let actions := (n.items.map (fun item => processItemActions env slug n.projectId item)).flatten
  { recordsToUpsert := dedupByCodename (actions.flatMap (fun a => a.recordsToReindex))
    objectIdsToRemove := dedupSet (actions.flatMap (fun a => a.objectIdsToRemove)) }

/-- The external calls of one payload element: all reads of its items,
then the batch upsert (when nonempty), then the batch delete (when
nonempty) — lines 158-159 run after the per-item `Promise.all`. -/
def notificationEvents (env : Env) (slug : String) (n : Notification) : List Event :=
  let ms := mutationsOf env slug n
  (n.items.map (fun item => processItemEvents env n.projectId item)).flatten
    ++ (if ms.recordsToUpsert.isEmpty then [] else [Event.upsertBatch ms.recordsToUpsert])
    ++ (if ms.objectIdsToRemove.isEmpty then [] else [Event.deleteBatch ms.objectIdsToRemove])

/-- The summary of one payload element (lines 158-164): the write
responses echo the written identifiers, and a skipped write reports
nothing.  The write-response shape is modelled from the spec contract of
the Index Writer. -/
def notificationResult (env : Env) (slug : String) (n : Notification) :
    Option (List String) × Option (List String) :=
  let ms := mutationsOf env slug n
  (if ms.objectIdsToRemove.isEmpty then none else some ms.objectIdsToRemove,
   if ms.recordsToUpsert.isEmpty then none
   else some (ms.recordsToUpsert.map (fun r => r.objectID)))

/-- Embeds `webhookData.notifications ?? [webhookData]`. -/
def normalizeBody : WebhookBody → List Notification
  | .legacy n => [n]
  | .wrapped ns => ns

/-- All external calls of one run over a normalized batch, payload
elements in order (the canonical schedule of the concurrent execution). -/
def runEvents (env : Env) (slug : String) (notifications : List Notification) :
    List Event :=
  (notifications.map (fun n => notificationEvents env slug n)).flatten

/-- The HTTP response of the handler; the two lists are only populated
on the 200 path. -/
structure HandlerResponse where
  statusCode : Nat
  deletedObjectIds : List String
  reIndexedObjectIds : List String
deriving DecidableEq, Repr

/-- Embeds the handler (lines 65-180): the guard chain (method, body,
environment variables, signature, query parameters) followed by the
reconciliation run and the aggregated summary.  The second component is
the trace of external calls the invocation performs. -/
def handlerRun (env : Env) (req : HttpRequest) : HandlerResponse × List Event :=
  if req.httpMethod != "POST" then
    ({ statusCode := 405, deletedObjectIds := [], reIndexedObjectIds := [] }, [])
  else
    match req.body with
    | none => ({ statusCode := 400, deletedObjectIds := [], reIndexedObjectIds := [] }, [])
    | some body =>
      if !env.kontentSecretPresent || !env.algoliaApiKeyPresent then
        ({ statusCode := 500, deletedObjectIds := [], reIndexedObjectIds := [] }, [])
      else if !req.signatureHeaderPresent || !env.signatureValid then
        ({ statusCode := 401, deletedObjectIds := [], reIndexedObjectIds := [] }, [])
      else if !areValidQueryParams req.queryStringParameters then
        ({ statusCode := 400, deletedObjectIds := [], reIndexedObjectIds := [] }, [])
      else
        let slug := slugOf req.queryStringParameters
        let notifications := normalizeBody body
        let results := notifications.map (fun n => notificationResult env slug n)
        ({ statusCode := 200
           deletedObjectIds := (results.map (fun r => r.1.getD [])).flatten
           reIndexedObjectIds := (results.map (fun r => r.2.getD [])).flatten },
         runEvents env slug notifications)

/-- Modelled from the spec: one `saveObjects` upsert — replace the
record holding the same `objectID`, or append a new record. -/
def upsertOne (idx : List AlgoliaRecord) (r : AlgoliaRecord) : List AlgoliaRecord :=
  if idx.any (fun q => q.objectID == r.objectID) then
    idx.map (fun q => if q.objectID == r.objectID then r else q)
  else idx ++ [r]

/-- Modelled from the spec: the batch upsert of the Index Writer. -/
def applyUpserts (idx : List AlgoliaRecord) (rs : List AlgoliaRecord) :
    List AlgoliaRecord :=
  rs.foldl upsertOne idx

/-- Modelled from the spec: the batch delete of the Index Writer. -/
def applyDeletes (idx : List AlgoliaRecord) (ids : List String) :
    List AlgoliaRecord :=
  idx.filter (fun r => !(ids.contains r.objectID))

/-- The effect of one mutation set on the index, in the order of the
handler: the upsert batch is awaited before the delete batch. -/
def applyMutationSet (idx : List AlgoliaRecord) (ms : MutationSet) :
    List AlgoliaRecord :=
  applyDeletes (applyUpserts idx ms.recordsToUpsert) ms.objectIdsToRemove

/-- All object identifiers the index queries of a run return, across
every item of every payload element. -/
def allQueriedObjectIDs (env : Env) (notifications : List Notification) :
    List String :=
  ((notifications.flatMap (fun n => n.items)).flatMap
    (fun it => findAgoliaItems env it.codename it.language)).map
      (fun r => r.objectID)

/-! ### Concrete scenarios

Small closed environments exercising the runs: entity graphs, index
states and requests used to evaluate the reconciler on explicit
inputs. -/

/-- An article for codename `post-2` that lacks the `url` slug element,
so its projection precondition fails. -/
def dC1 : DeliverItem :=
  { system := { id := "id-1", codename := "post-2", language := "en", type := "article" }
    elements := [] }

def eC1 : AlgoliaRecord :=
  { objectID := "obj-1", codename := "post-2", language := "en"
    slug := some "s", content := [] }

def envC1 : Env :=
  { kontentSecretPresent := true, algoliaApiKeyPresent := true, signatureValid := true
    indexState := [eC1]
    searchFails := fun _ _ => false
    fetch := fun _ c l => if c == "post-2" && l == "en" then some [dC1] else none }

def nC1 : Notification := { projectId := "proj", items := [{ codename := "post-2", language := "en" }] }

def dC2a : DeliverItem :=
  { system := { id := "id-a", codename := "a", language := "en", type := "article" }
    elements := [("url", "slug-a")] }

def dC2b : DeliverItem :=
  { system := { id := "id-b", codename := "b", language := "en", type := "article" }
    elements := [("url", "slug-b")] }

def envC2 : Env :=
  { kontentSecretPresent := true, algoliaApiKeyPresent := true, signatureValid := true
    indexState := []
    searchFails := fun _ _ => false
    fetch := fun _ c _ =>
      if c == "a" then some [dC2a] else if c == "b" then some [dC2b] else none }

/-- A new-format payload of two notifications, each with one eligible
item. -/
def reqC2 : HttpRequest :=
  { httpMethod := "POST"
    body := some (WebhookBody.wrapped
      [{ projectId := "p1", items := [{ codename := "a", language := "en" }] },
       { projectId := "p2", items := [{ codename := "b", language := "en" }] }])
    signatureHeaderPresent := true
    queryStringParameters := some { slug := some "url", appId := some "app", index := some "idx" } }

/-- The entity behind codename `c` carries the stable id `obj-x`, which
is also the object id of the stale record still indexed under the old
codename `c2`. -/
def dC3 : DeliverItem :=
  { system := { id := "obj-x", codename := "c", language := "en", type := "article" }
    elements := [("url", "v")] }

def eC3 : AlgoliaRecord :=
  { objectID := "obj-x", codename := "c2", language := "en"
    slug := some "s", content := [] }

def envC3 : Env :=
  { kontentSecretPresent := true, algoliaApiKeyPresent := true, signatureValid := true
    indexState := [eC3]
    searchFails := fun _ _ => false
    fetch := fun _ c l => if c == "c" && l == "en" then some [dC3] else none }

def nC3 : Notification :=
  { projectId := "proj"
    items := [{ codename := "c", language := "en" },
              { codename := "c", language := "en" },
              { codename := "c2", language := "en" }] }

def dC4 : DeliverItem :=
  { system := { id := "id-4", codename := "post-1", language := "en", type := "article" }
    elements := [("url", "slug-1")] }

def envC4 : Env :=
  { kontentSecretPresent := true, algoliaApiKeyPresent := true, signatureValid := true
    indexState := []
    searchFails := fun _ _ => false
    fetch := fun _ c l => if c == "post-1" && l == "en" then some [dC4] else none }

def nC4 : Notification := { projectId := "proj", items := [{ codename := "post-1", language := "en" }] }

/-- The environment of the second run: the index as converged by the
first run. -/
def envC4b : Env :=
  { envC4 with indexState := applyMutationSet envC4.indexState (mutationsOf envC4 "url" nC4) }

def eC5 : AlgoliaRecord :=
  { objectID := "abc123", codename := "post-2", language := "en"
    slug := some "s", content := [] }

def envC5 : Env :=
  { kontentSecretPresent := true, algoliaApiKeyPresent := true, signatureValid := true
    indexState := [eC5]
    searchFails := fun _ _ => false
    fetch := fun _ _ _ => none }

def dC6 : DeliverItem :=
  { system := { id := "id-6", codename := "x", language := "en", type := "blogpost" }
    elements := [("url", "v")] }

def eC6 : AlgoliaRecord :=
  { objectID := "obj-6", codename := "x", language := "en"
    slug := some "s", content := [] }

def envC6 : Env :=
  { kontentSecretPresent := true, algoliaApiKeyPresent := true, signatureValid := true
    indexState := [eC6]
    searchFails := fun _ _ => false
    fetch := fun _ c _ => if c == "x" then some [dC6] else none }

def nC6 : Notification := { projectId := "proj", items := [{ codename := "x", language := "en" }] }

def dC7 : DeliverItem :=
  { system := { id := "id-7", codename := "good", language := "en", type := "article" }
    elements := [("url", "g")] }

def fetchC7 : String → String → String → Option (List DeliverItem) :=
  fun _ c _ => if c == "good" then some [dC7] else none

/-- Index query throws for `(bad, en)` only. -/
def envC7a : Env :=
  { kontentSecretPresent := true, algoliaApiKeyPresent := true, signatureValid := true
    indexState := []
    searchFails := fun c l => c == "bad" && l == "en"
    fetch := fetchC7 }

/-- Same collaborators with the `(bad, en)` failure healed. -/
def envC7b : Env :=
  { kontentSecretPresent := true, algoliaApiKeyPresent := true, signatureValid := true
    indexState := []
    searchFails := fun _ _ => false
    fetch := fetchC7 }

def envC7fail : Env :=
  { kontentSecretPresent := true, algoliaApiKeyPresent := true, signatureValid := true
    indexState := []
    searchFails := fun _ _ => true
    fetch := fun _ _ _ => none }

def dC8 : DeliverItem :=
  { system := { id := "id-8", codename := "post-1", language := "en", type := "article" }
    elements := [("url", "s1")] }

def envC8a : Env :=
  { kontentSecretPresent := true, algoliaApiKeyPresent := true, signatureValid := true
    indexState := []
    searchFails := fun _ _ => false
    fetch := fun _ c l => if c == "post-1" && l == "en" then some [dC8] else none }

def envC8b : Env :=
  { kontentSecretPresent := true, algoliaApiKeyPresent := true, signatureValid := true
    indexState := []
    searchFails := fun _ _ => false
    fetch := fun _ _ _ => none }

def dC8c : DeliverItem :=
  { system := { id := "id-8c", codename := "post-1", language := "en", type := "author" }
    elements := [("url", "s")] }

def envC8c : Env :=
  { kontentSecretPresent := true, algoliaApiKeyPresent := true, signatureValid := true
    indexState := []
    searchFails := fun _ _ => false
    fetch := fun _ c l => if c == "post-1" && l == "en" then some [dC8c] else none }

def envC9 : Env :=
  { kontentSecretPresent := true, algoliaApiKeyPresent := true, signatureValid := true
    indexState := []
    searchFails := fun _ _ => false
    fetch := fun _ _ _ => none }

/-- A POST request with valid parameters but no body. -/
def reqC9 : HttpRequest :=
  { httpMethod := "POST"
    body := none
    signatureHeaderPresent := true
    queryStringParameters := some { slug := some "url", appId := some "app", index := some "idx" } }

def eC10 : AlgoliaRecord :=
  { objectID := "o", codename := "x", language := "en"
    slug := some "s", content := [] }

def envC10 : Env :=
  { kontentSecretPresent := true, algoliaApiKeyPresent := true, signatureValid := true
    indexState := [eC10]
    searchFails := fun _ _ => false
    fetch := fun _ _ _ => none }

def nC10 : Notification := { projectId := "p", items := [{ codename := "x", language := "en" }] }

/-! ### Helper lemmas -/

theorem findAgoliaItems_of_fails {env : Env} {c l : String}
    (h : env.searchFails c l = true) : findAgoliaItems env c l = [] := by
  simp [findAgoliaItems, h]

theorem findAgoliaItems_of_ok {env : Env} {c l : String}
    (h : env.searchFails c l = false) :
    findAgoliaItems env c l
      = env.indexState.filter (fun r => r.codename == c && r.language == l) := by
  simp [findAgoliaItems, h]

theorem mem_findAgoliaItems {env : Env} {c l : String} {q : AlgoliaRecord}
    (h : q ∈ findAgoliaItems env c l) :
    q.codename = c ∧ q.language = l ∧ q ∈ env.indexState := by
  unfold findAgoliaItems at h
  by_cases hf : env.searchFails c l
  · simp [hf] at h
  · simp only [hf, if_neg, Bool.false_eq_true, not_false_eq_true, if_false] at h
    have h2 := List.mem_filter.mp h
    have h3 := h2.2
    simp only [Bool.and_eq_true, beq_iff_eq] at h3
    exact ⟨h3.1, h3.2, h2.1⟩

theorem mem_findAgoliaItems_iff {env : Env} {c l : String} {q : AlgoliaRecord}
    (hf : env.searchFails c l = false) :
    q ∈ findAgoliaItems env c l ↔ q ∈ env.indexState ∧ q.codename = c ∧ q.language = l := by
  rw [findAgoliaItems_of_ok hf, List.mem_filter]
  simp [Bool.and_eq_true, beq_iff_eq]

theorem findDeliver_entry {env : Env} {p c l : String} {pr : String × DeliverItem}
    (h : pr ∈ findDeliverItemWithChildrenByCodename env p c l) :
    pr.2.system.codename = pr.1 := by
  unfold findDeliverItemWithChildrenByCodename at h
  cases hf : env.fetch p c l with
  | none => rw [hf] at h; simp at h
  | some items =>
    rw [hf] at h
    rcases List.mem_map.mp h with ⟨i, _, hpr⟩
    rw [← hpr]

theorem mapGet_codename {env : Env} {p c l k : String} {d : DeliverItem}
    (h : mapGet (findDeliverItemWithChildrenByCodename env p c l) k = some d) :
    d.system.codename = k := by
  unfold mapGet at h
  cases hfind : (findDeliverItemWithChildrenByCodename env p c l).reverse.find?
      (fun pr => pr.1 == k) with
  | none => rw [hfind] at h; simp at h
  | some pr =>
    rw [hfind] at h
    simp only [Option.map_some'] at h
    have hpred0 := List.find?_some hfind
    have hpred : (pr.1 == k) = true := hpred0
    have hmem : pr ∈ (findDeliverItemWithChildrenByCodename env p c l).reverse :=
      List.mem_of_find?_eq_some hfind
    rw [List.mem_reverse] at hmem
    have hcode := findDeliver_entry hmem
    have hd : pr.2 = d := Option.some.inj h
    rw [← hd, hcode]
    exact beq_iff_eq.mp hpred

theorem dedupSet_go_mem (l : List String) (acc : List String) (a : String) :
    (a ∈ l.foldl (fun acc s => if acc.contains s then acc else acc ++ [s]) acc)
      ↔ a ∈ acc ∨ a ∈ l := by
  induction l generalizing acc with
  | nil => simp
  | cons x xs ih =>
    simp only [List.foldl_cons]
    rw [ih]
    cases hx : acc.contains x with
    | true =>
      simp only [if_pos rfl]
      have hxa : x ∈ acc := List.elem_iff.mp hx
      constructor
      · rintro (h | h)
        · exact Or.inl h
        · exact Or.inr (List.mem_cons_of_mem x h)
      · rintro (h | h)
        · exact Or.inl h
        · rcases List.mem_cons.mp h with h | h
          · exact Or.inl (h ▸ hxa)
          · exact Or.inr h
    | false =>
      simp only [Bool.false_eq_true, if_false, List.mem_append, List.mem_singleton,
        List.mem_cons]
      tauto

theorem mem_dedupSet {l : List String} {a : String} :
    a ∈ dedupSet l ↔ a ∈ l := by
  unfold dedupSet
  rw [dedupSet_go_mem]
  simp

theorem dedupSet_go_nodup (l : List String) (acc : List String)
    (h : acc.Nodup) :
    (l.foldl (fun acc s => if acc.contains s then acc else acc ++ [s]) acc).Nodup := by
  induction l generalizing acc with
  | nil => exact h
  | cons x xs ih =>
    simp only [List.foldl_cons]
    cases hx : acc.contains x with
    | true => exact ih acc h
    | false =>
      simp only [Bool.false_eq_true, if_false]
      apply ih
      rw [List.nodup_append]
      refine ⟨h, List.nodup_singleton x, ?_⟩
      intro a ha hb
      rw [List.mem_singleton] at hb
      subst hb
      have hc : acc.contains a = true := List.elem_iff.mpr ha
      simp at hx
      exact hx ha

theorem dedupSet_nodup (l : List String) : (dedupSet l).Nodup :=
  dedupSet_go_nodup l [] List.nodup_nil

theorem dedupSet_nil : dedupSet [] = [] := rfl

theorem flatMap_single {α β : Type} (l : List α) (f : α → β) :
    (l.flatMap fun x => [f x]) = l.map f := by
  induction l with
  | nil => rfl
  | cons x xs ih => simp [List.flatMap_cons, ih]

theorem flatMap_nil_fun {α β : Type} (l : List α) :
    (l.flatMap fun _ => ([] : List β)) = [] := by
  induction l with
  | nil => rfl
  | cons x xs ih => simp [List.flatMap_cons, ih]

theorem mapUpsert_eq_replace {m : List (String × AlgoliaRecord)} {k : String}
    {v : AlgoliaRecord} (h : m.any (fun p => p.1 == k) = true) :
    mapUpsert m k v = m.map (fun p => if p.1 == k then (k, v) else p) := by
  unfold mapUpsert
  rw [h, if_pos rfl]

theorem mapUpsert_eq_append {m : List (String × AlgoliaRecord)} {k : String}
    {v : AlgoliaRecord} (h : m.any (fun p => p.1 == k) = false) :
    mapUpsert m k v = m ++ [(k, v)] := by
  unfold mapUpsert
  rw [h]
  simp

theorem mapUpsert_inv (m : List (String × AlgoliaRecord)) (r : AlgoliaRecord)
    (h1 : (m.map (fun p => p.1)).Nodup)
    (h2 : ∀ p ∈ m, p.2.codename = p.1) :
    ((mapUpsert m r.codename r).map (fun p => p.1)).Nodup
      ∧ ∀ p ∈ mapUpsert m r.codename r, p.2.codename = p.1 := by
  cases hany : m.any (fun p => p.1 == r.codename) with
  | true =>
    rw [mapUpsert_eq_replace hany]
    constructor
    · rw [List.map_map]
      have : ((fun p => p.1) ∘ fun p : String × AlgoliaRecord =>
          if p.1 == r.codename then (r.codename, r) else p) = fun p => p.1 := by
        funext p
        by_cases hp : p.1 == r.codename
        · simp [hp, beq_iff_eq.mp hp]
        · have hne : p.1 ≠ r.codename := by simpa using hp
          simp [hne]
      rw [this]
      exact h1
    · intro p hp
      rcases List.mem_map.mp hp with ⟨q, hq, hqe⟩
      by_cases hqc : q.1 == r.codename
      · rw [if_pos hqc] at hqe
        rw [← hqe]
      · rw [if_neg hqc] at hqe
        rw [← hqe]
        exact h2 q hq
  | false =>
    rw [mapUpsert_eq_append hany]
    constructor
    · rw [List.map_append, List.nodup_append]
      refine ⟨h1, by simp, ?_⟩
      intro a ha hb
      simp only [List.map_cons, List.map_nil, List.mem_singleton] at hb
      subst hb
      rcases List.mem_map.mp ha with ⟨q, hq, hqe⟩
      have hbeq : (q.1 == r.codename) = true := beq_iff_eq.mpr hqe
      have hfalse := List.any_eq_false.mp hany q hq
      exact hfalse hbeq
    · intro p hp
      rcases List.mem_append.mp hp with h | h
      · exact h2 p h
      · rw [List.mem_singleton] at h
        subst h
        rfl

theorem dedup_fold_inv (recs : List AlgoliaRecord)
    (m : List (String × AlgoliaRecord))
    (h1 : (m.map (fun p => p.1)).Nodup)
    (h2 : ∀ p ∈ m, p.2.codename = p.1) :
    (((recs.foldl (fun m r => mapUpsert m r.codename r) m).map (fun p => p.1)).Nodup)
      ∧ ∀ p ∈ recs.foldl (fun m r => mapUpsert m r.codename r) m, p.2.codename = p.1 := by
  induction recs generalizing m with
  | nil => exact ⟨h1, h2⟩
  | cons r rs ih =>
    simp only [List.foldl_cons]
    have hnext := mapUpsert_inv m r h1 h2
    exact ih (mapUpsert m r.codename r) hnext.1 hnext.2

theorem dedupByCodename_codenames_nodup (recs : List AlgoliaRecord) :
    ((dedupByCodename recs).map (fun r => r.codename)).Nodup := by
  unfold dedupByCodename
  have hinv := dedup_fold_inv recs [] (by simp) (by simp)
  rw [List.map_map]
  have : ((fun r : AlgoliaRecord => r.codename) ∘ fun p : String × AlgoliaRecord => p.2)
      = fun p : String × AlgoliaRecord => p.2.codename := rfl
  rw [this]
  have heq := List.map_congr_left (fun p hp => hinv.2 p hp)
  rw [heq]
  exact hinv.1

theorem dedup_fold_sub (recs : List AlgoliaRecord) (S : List AlgoliaRecord)
    (m : List (String × AlgoliaRecord))
    (hm : ∀ p ∈ m, p.2 ∈ S) (hr : ∀ r ∈ recs, r ∈ S) :
    ∀ p ∈ recs.foldl (fun m r => mapUpsert m r.codename r) m, p.2 ∈ S := by
  induction recs generalizing m with
  | nil => exact hm
  | cons r rs ih =>
    simp only [List.foldl_cons]
    apply ih
    · intro p hp
      cases hany : m.any (fun p => p.1 == r.codename) with
      | true =>
        rw [mapUpsert_eq_replace hany] at hp
        rcases List.mem_map.mp hp with ⟨q, hq, hqe⟩
        by_cases hqc : q.1 == r.codename
        · rw [if_pos hqc] at hqe
          rw [← hqe]
          exact hr r (List.mem_cons_self r rs)
        · rw [if_neg hqc] at hqe
          rw [← hqe]
          exact hm q hq
      | false =>
        rw [mapUpsert_eq_append hany] at hp
        rcases List.mem_append.mp hp with h | h
        · exact hm p h
        · rw [List.mem_singleton] at h
          subst h
          exact hr r (List.mem_cons_self r rs)
    · intro x hx
      exact hr x (List.mem_cons_of_mem r hx)

theorem mem_dedupByCodename {recs : List AlgoliaRecord} {x : AlgoliaRecord}
    (h : x ∈ dedupByCodename recs) : x ∈ recs := by
  unfold dedupByCodename at h
  rcases List.mem_map.mp h with ⟨p, hp, hpe⟩
  have := dedup_fold_sub recs recs [] (by simp) (fun r hr => hr) p hp
  rw [← hpe]
  exact this

theorem dedupByCodename_nil : dedupByCodename [] = [] := rfl

theorem dedupByCodename_singleton (r : AlgoliaRecord) :
    dedupByCodename [r] = [r] := rfl

theorem fold_const_state (xs : List AlgoliaRecord) (r : AlgoliaRecord)
    (hall : ∀ x ∈ xs, x = r) :
    xs.foldl (fun m x => mapUpsert m x.codename x) [(r.codename, r)]
      = [(r.codename, r)] := by
  induction xs with
  | nil => rfl
  | cons y ys ih =>
    have hy : y = r := hall y (List.mem_cons_self y ys)
    subst hy
    simp only [List.foldl_cons]
    have hstep : mapUpsert [(y.codename, y)] y.codename y = [(y.codename, y)] := by
      unfold mapUpsert
      simp
    rw [hstep]
    exact ih (fun x hx => hall x (List.mem_cons_of_mem y hx))

theorem dedupByCodename_const {recs : List AlgoliaRecord} {r : AlgoliaRecord}
    (hne : recs ≠ []) (hall : ∀ x ∈ recs, x = r) :
    dedupByCodename recs = [r] := by
  cases recs with
  | nil => exact absurd rfl hne
  | cons x xs =>
    have hx : x = r := hall x (List.mem_cons_self x xs)
    subst hx
    unfold dedupByCodename
    simp only [List.foldl_cons]
    have hfirst : mapUpsert [] x.codename x = [(x.codename, x)] := rfl
    rw [hfirst, fold_const_state xs x (fun y hy => hall y (List.mem_cons_of_mem x hy))]
    rfl

theorem upsertOne_eq_replace {idx : List AlgoliaRecord} {r : AlgoliaRecord}
    (h : idx.any (fun q => q.objectID == r.objectID) = true) :
    upsertOne idx r = idx.map (fun q => if q.objectID == r.objectID then r else q) := by
  unfold upsertOne
  rw [h, if_pos rfl]

theorem upsertOne_eq_append {idx : List AlgoliaRecord} {r : AlgoliaRecord}
    (h : idx.any (fun q => q.objectID == r.objectID) = false) :
    upsertOne idx r = idx ++ [r] := by
  unfold upsertOne
  rw [h]
  simp

theorem upsertOne_idem (idx : List AlgoliaRecord) (r : AlgoliaRecord) :
    upsertOne (upsertOne idx r) r = upsertOne idx r := by
  cases hany : idx.any (fun q => q.objectID == r.objectID) with
  | true =>
    rw [upsertOne_eq_replace hany]
    rcases List.any_eq_true.mp hany with ⟨q, hq, hqp⟩
    have hany2 : (idx.map (fun q => if q.objectID == r.objectID then r else q)).any
        (fun q => q.objectID == r.objectID) = true := by
      apply List.any_eq_true.mpr
      refine ⟨r, ?_, by simp⟩
      apply List.mem_map.mpr
      exact ⟨q, hq, by rw [if_pos hqp]⟩
    rw [upsertOne_eq_replace hany2, List.map_map]
    apply List.map_congr_left
    intro a _
    by_cases ha : a.objectID == r.objectID
    · simp only [Function.comp_apply, if_pos ha]
      simp
    · simp only [Function.comp_apply, if_neg ha, if_neg ha]
  | false =>
    rw [upsertOne_eq_append hany]
    have hany2 : ((idx ++ [r]).any (fun q => q.objectID == r.objectID)) = true := by
      apply List.any_eq_true.mpr
      exact ⟨r, List.mem_append_right idx (List.mem_singleton.mpr rfl), by simp⟩
    rw [upsertOne_eq_replace hany2, List.map_append]
    have h1 : idx.map (fun q => if q.objectID == r.objectID then r else q) = idx := by
      have hid : ∀ q ∈ idx, (if q.objectID == r.objectID then r else q) = q := by
        intro q hq
        have := List.any_eq_false.mp hany q hq
        rw [if_neg (by simp [this])]
      calc idx.map (fun q => if q.objectID == r.objectID then r else q)
          = idx.map id := List.map_congr_left hid
        _ = idx := List.map_id idx
    rw [h1]
    simp

theorem applyMutationSet_empty (idx : List AlgoliaRecord) :
    applyMutationSet idx { recordsToUpsert := [], objectIdsToRemove := [] } = idx := by
  unfold applyMutationSet applyUpserts applyDeletes
  simp

theorem applyMutationSet_single_upsert (idx : List AlgoliaRecord) (r : AlgoliaRecord) :
    applyMutationSet idx { recordsToUpsert := [r], objectIdsToRemove := [] }
      = upsertOne idx r := by
  unfold applyMutationSet applyUpserts applyDeletes
  simp

theorem applyMutationSet_deletes (idx : List AlgoliaRecord) (ids : List String) :
    applyMutationSet idx { recordsToUpsert := [], objectIdsToRemove := ids }
      = applyDeletes idx ids := by
  unfold applyMutationSet applyUpserts
  rfl

/-! ### Branch characterizations of the per-item reconciliation -/

theorem processItemActions_empty_none (env : Env) (slug p : String)
    (it : WebhookItem)
    (h1 : findAgoliaItems env it.codename it.language = [])
    (h2 : mapGet (findDeliverItemWithChildrenByCodename env p it.codename it.language)
        it.codename = none) :
    processItemActions env slug p it
      = [{ objectIdsToRemove := [], recordsToReindex := [] }] := by
  simp only [processItemActions, h1, h2, List.isEmpty_nil, if_true]

theorem processItemActions_empty_bad (env : Env) (slug p : String)
    (it : WebhookItem) (d : DeliverItem)
    (h1 : findAgoliaItems env it.codename it.language = [])
    (h2 : mapGet (findDeliverItemWithChildrenByCodename env p it.codename it.language)
        it.codename = some d)
    (h3 : (d.system.type != "article" && d.system.type != "product") = true) :
    processItemActions env slug p it
      = [{ objectIdsToRemove := [], recordsToReindex := [] }] := by
  simp only [processItemActions, h1, h2, h3, List.isEmpty_nil, if_true]

theorem processItemActions_empty_ok (env : Env) (slug p : String)
    (it : WebhookItem) (d : DeliverItem)
    (h1 : findAgoliaItems env it.codename it.language = [])
    (h2 : mapGet (findDeliverItemWithChildrenByCodename env p it.codename it.language)
        it.codename = some d)
    (h3 : (d.system.type != "article" && d.system.type != "product") = false)
    (h4 : canConvertToAlgoliaItem slug d = true) :
    processItemActions env slug p it
      = [{ objectIdsToRemove := []
           recordsToReindex :=
             [convertToAlgoliaItem
               (findDeliverItemWithChildrenByCodename env p it.codename it.language)
               slug d] }] := by
  simp only [processItemActions, h1, h2, h3, h4, List.isEmpty_nil, if_true,
    Bool.false_eq_true, if_false]

theorem processItemActions_empty_noconv (env : Env) (slug p : String)
    (it : WebhookItem) (d : DeliverItem)
    (h1 : findAgoliaItems env it.codename it.language = [])
    (h2 : mapGet (findDeliverItemWithChildrenByCodename env p it.codename it.language)
        it.codename = some d)
    (h3 : (d.system.type != "article" && d.system.type != "product") = false)
    (h4 : canConvertToAlgoliaItem slug d = false) :
    processItemActions env slug p it
      = [{ objectIdsToRemove := [], recordsToReindex := [] }] := by
  simp only [processItemActions, h1, h2, h3, h4, List.isEmpty_nil, if_true,
    Bool.false_eq_true, if_false]

theorem processItemActions_nonempty_none (env : Env) (slug p : String)
    (it : WebhookItem)
    (hne : (findAgoliaItems env it.codename it.language).isEmpty = false)
    (h2 : mapGet (findDeliverItemWithChildrenByCodename env p it.codename it.language)
        it.codename = none) :
    processItemActions env slug p it
      = (findAgoliaItems env it.codename it.language).map
          (fun i => { objectIdsToRemove := [i.objectID], recordsToReindex := [] }) := by
  simp only [processItemActions, hne, Bool.false_eq_true, if_false]
  apply List.map_congr_left
  intro i hi
  rcases mem_findAgoliaItems hi with ⟨hc, hl, _⟩
  rw [hc, hl, h2]

theorem processItemActions_nonempty_bad (env : Env) (slug p : String)
    (it : WebhookItem) (d : DeliverItem)
    (hne : (findAgoliaItems env it.codename it.language).isEmpty = false)
    (h2 : mapGet (findDeliverItemWithChildrenByCodename env p it.codename it.language)
        it.codename = some d)
    (h3 : (d.system.type != "article" && d.system.type != "product") = true) :
    processItemActions env slug p it
      = (findAgoliaItems env it.codename it.language).map
          (fun i => { objectIdsToRemove := [i.objectID], recordsToReindex := [] }) := by
  simp only [processItemActions, hne, Bool.false_eq_true, if_false]
  apply List.map_congr_left
  intro i hi
  rcases mem_findAgoliaItems hi with ⟨hc, hl, _⟩
  rw [hc, hl, h2]
  simp [h3]

theorem processItemActions_nonempty_ok (env : Env) (slug p : String)
    (it : WebhookItem) (d : DeliverItem)
    (hne : (findAgoliaItems env it.codename it.language).isEmpty = false)
    (h2 : mapGet (findDeliverItemWithChildrenByCodename env p it.codename it.language)
        it.codename = some d)
    (h3 : (d.system.type != "article" && d.system.type != "product") = false) :
    processItemActions env slug p it
      = (findAgoliaItems env it.codename it.language).map
          (fun _ => { objectIdsToRemove := []
                      recordsToReindex :=
                        [convertToAlgoliaItem
                          (findDeliverItemWithChildrenByCodename env p
                            it.codename it.language) slug d] }) := by
  simp only [processItemActions, hne, Bool.false_eq_true, if_false]
  apply List.map_congr_left
  intro i hi
  rcases mem_findAgoliaItems hi with ⟨hc, hl, _⟩
  rw [hc, hl, h2]
  simp [h3]

theorem mutationsOf_single (env : Env) (slug p : String) (it : WebhookItem) :
    mutationsOf env slug { projectId := p, items := [it] } =
      { recordsToUpsert :=
          dedupByCodename ((processItemActions env slug p it).flatMap
            (fun a => a.recordsToReindex))
        objectIdsToRemove :=
          dedupSet ((processItemActions env slug p it).flatMap
            (fun a => a.objectIdsToRemove)) } := by
  unfold mutationsOf
  simp

theorem mutationsOf_single_empty (env : Env) (slug p : String) (it : WebhookItem)
    (hpia : processItemActions env slug p it
      = [{ objectIdsToRemove := [], recordsToReindex := [] }]) :
    mutationsOf env slug { projectId := p, items := [it] }
      = { recordsToUpsert := [], objectIdsToRemove := [] } := by
  rw [mutationsOf_single, hpia]
  rfl

theorem mutationsOf_single_upsert (env : Env) (slug p : String) (it : WebhookItem)
    (r : AlgoliaRecord)
    (hpia : processItemActions env slug p it
      = [{ objectIdsToRemove := [], recordsToReindex := [r] }]) :
    mutationsOf env slug { projectId := p, items := [it] }
      = { recordsToUpsert := [r], objectIdsToRemove := [] } := by
  rw [mutationsOf_single, hpia]
  rfl

theorem flatMap_const_single_mem {α β : Type} {l : List α} {r x : β}
    (h : x ∈ l.flatMap (fun _ => [r])) : x = r := by
  rcases List.mem_flatMap.mp h with ⟨b, _, hx⟩
  exact List.mem_singleton.mp hx

theorem flatMap_const_single_ne_nil {α β : Type} (l : List α) (r : β)
    (h : l ≠ []) : l.flatMap (fun _ => [r]) ≠ [] := by
  cases l with
  | nil => exact absurd rfl h
  | cons x xs => simp [List.flatMap_cons]

theorem mutationsOf_single_removes (env : Env) (slug p : String) (it : WebhookItem)
    (es : List AlgoliaRecord)
    (hpia : processItemActions env slug p it
      = es.map (fun i => { objectIdsToRemove := [i.objectID], recordsToReindex := [] })) :
    mutationsOf env slug { projectId := p, items := [it] }
      = { recordsToUpsert := []
          objectIdsToRemove := dedupSet (es.map (fun i => i.objectID)) } := by
  rw [mutationsOf_single, hpia]
  rw [List.flatMap_map, List.flatMap_map]
  have h1 : (es.flatMap fun a =>
      (Action.mk [a.objectID] ([] : List AlgoliaRecord)).recordsToReindex) = [] :=
    flatMap_nil_fun es
  have h2 : (es.flatMap fun a =>
      (Action.mk [a.objectID] ([] : List AlgoliaRecord)).objectIdsToRemove)
      = es.map (fun i => i.objectID) :=
    flatMap_single es (fun i => i.objectID)
  rw [h1, h2]
  rfl

theorem mutationsOf_single_const_upsert (env : Env) (slug p : String)
    (it : WebhookItem) (es : List AlgoliaRecord) (r : AlgoliaRecord)
    (hne : es ≠ [])
    (hpia : processItemActions env slug p it
      = es.map (fun _ => { objectIdsToRemove := [], recordsToReindex := [r] })) :
    mutationsOf env slug { projectId := p, items := [it] }
      = { recordsToUpsert := [r], objectIdsToRemove := [] } := by
  rw [mutationsOf_single, hpia]
  rw [List.flatMap_map, List.flatMap_map]
  have h1 : (es.flatMap fun _ =>
      (Action.mk ([] : List String) [r]).recordsToReindex)
      = es.flatMap (fun _ => [r]) := rfl
  have h2 : (es.flatMap fun _ =>
      (Action.mk ([] : List String) [r]).objectIdsToRemove) = [] :=
    flatMap_nil_fun es
  rw [h1, h2]
  have h3 : dedupByCodename (es.flatMap (fun _ => [r])) = [r] :=
    dedupByCodename_const (flatMap_const_single_ne_nil es r hne)
      (fun x hx => flatMap_const_single_mem hx)
  rw [h3]
  rfl

theorem isEmpty_false_of_ne_nil {α : Type} {xs : List α} (h : xs ≠ []) :
    xs.isEmpty = false := by
  cases xs with
  | nil => exact absurd rfl h
  | cons a as => rfl

theorem searchFails_false_of_found {env : Env} {c l : String}
    (h : findAgoliaItems env c l ≠ []) : env.searchFails c l = false := by
  cases hq : env.searchFails c l with
  | false => rfl
  | true => exact absurd (findAgoliaItems_of_fails hq) h

/-- Every single-item run produces a mutation set of one of three
shapes: empty; one upserted record converted from the resolved, type
allowed entity; or removals of exactly the queried existing records,
when the entity is gone or type gated. -/
theorem mutationsOf_single_cases (env : Env) (slug p c l : String) :
    mutationsOf env slug { projectId := p, items := [{ codename := c, language := l }] }
        = { recordsToUpsert := [], objectIdsToRemove := [] }
    ∨ (∃ d, mapGet (findDeliverItemWithChildrenByCodename env p c l) c = some d
        ∧ (d.system.type != "article" && d.system.type != "product") = false
        ∧ mutationsOf env slug { projectId := p, items := [{ codename := c, language := l }] }
            = { recordsToUpsert :=
                  [convertToAlgoliaItem
                    (findDeliverItemWithChildrenByCodename env p c l) slug d]
                objectIdsToRemove := [] })
    ∨ ((mapGet (findDeliverItemWithChildrenByCodename env p c l) c = none
          ∨ ∃ d, mapGet (findDeliverItemWithChildrenByCodename env p c l) c = some d
              ∧ (d.system.type != "article" && d.system.type != "product") = true)
        ∧ env.searchFails c l = false
        ∧ findAgoliaItems env c l ≠ []
        ∧ mutationsOf env slug { projectId := p, items := [{ codename := c, language := l }] }
            = { recordsToUpsert := []
                objectIdsToRemove :=
                  dedupSet ((findAgoliaItems env c l).map (fun i => i.objectID)) }) := by
  by_cases hfa : findAgoliaItems env c l = []
  · cases hmg : mapGet (findDeliverItemWithChildrenByCodename env p c l) c with
    | none =>
      exact Or.inl (mutationsOf_single_empty env slug p ⟨c, l⟩
        (processItemActions_empty_none env slug p ⟨c, l⟩ hfa hmg))
    | some d =>
      cases htype : (d.system.type != "article" && d.system.type != "product") with
      | true =>
        exact Or.inl (mutationsOf_single_empty env slug p ⟨c, l⟩
          (processItemActions_empty_bad env slug p ⟨c, l⟩ d hfa hmg htype))
      | false =>
        cases hconv : canConvertToAlgoliaItem slug d with
        | true =>
          exact Or.inr (Or.inl ⟨d, rfl, htype,
            mutationsOf_single_upsert env slug p ⟨c, l⟩ _
              (processItemActions_empty_ok env slug p ⟨c, l⟩ d hfa hmg htype hconv)⟩)
        | false =>
          exact Or.inl (mutationsOf_single_empty env slug p ⟨c, l⟩
            (processItemActions_empty_noconv env slug p ⟨c, l⟩ d hfa hmg htype hconv))
  · have hne : (findAgoliaItems env c l).isEmpty = false := isEmpty_false_of_ne_nil hfa
    have hsf : env.searchFails c l = false := searchFails_false_of_found hfa
    cases hmg : mapGet (findDeliverItemWithChildrenByCodename env p c l) c with
    | none =>
      exact Or.inr (Or.inr ⟨Or.inl rfl, hsf, hfa,
        mutationsOf_single_removes env slug p ⟨c, l⟩ _
          (processItemActions_nonempty_none env slug p ⟨c, l⟩ hne hmg)⟩)
    | some d =>
      cases htype : (d.system.type != "article" && d.system.type != "product") with
      | true =>
        exact Or.inr (Or.inr ⟨Or.inr ⟨d, rfl, htype⟩, hsf, hfa,
          mutationsOf_single_removes env slug p ⟨c, l⟩ _
            (processItemActions_nonempty_bad env slug p ⟨c, l⟩ d hne hmg htype)⟩)
      | false =>
        exact Or.inr (Or.inl ⟨d, rfl, htype,
          mutationsOf_single_const_upsert env slug p ⟨c, l⟩ _ _ hfa
            (processItemActions_nonempty_ok env slug p ⟨c, l⟩ d hne hmg htype)⟩)

/-- After the run deleted every record its query returned, the same
query on the converged index returns nothing. -/
theorem findAgolia_after_removes (env : Env) (c l : String)
    (hsf : env.searchFails c l = false) :
    findAgoliaItems
      { env with
        indexState :=
          applyDeletes env.indexState
            (dedupSet ((findAgoliaItems env c l).map (fun i => i.objectID))) } c l
      = [] := by
  have hsf2 : ({ env with
      indexState := applyDeletes env.indexState
        (dedupSet ((findAgoliaItems env c l).map (fun i => i.objectID))) } : Env).searchFails c l = false := hsf
  rw [findAgoliaItems_of_ok hsf2]
  show (applyDeletes env.indexState
      (dedupSet ((findAgoliaItems env c l).map (fun i => i.objectID)))).filter
        (fun r => r.codename == c && r.language == l) = []
  rw [List.filter_eq_nil_iff]
  intro a ha
  unfold applyDeletes at ha
  have hm := List.mem_filter.mp ha
  intro hpred
  have hmem1 : a ∈ findAgoliaItems env c l := by
    rw [findAgoliaItems_of_ok hsf]
    exact List.mem_filter.mpr ⟨hm.1, hpred⟩
  have hid : a.objectID ∈ dedupSet ((findAgoliaItems env c l).map (fun i => i.objectID)) :=
    mem_dedupSet.mpr (List.mem_map.mpr ⟨a, hmem1, rfl⟩)
  have hcont : (dedupSet ((findAgoliaItems env c l).map
      (fun i => i.objectID))).contains a.objectID = true := List.elem_iff.mpr hid
  have hneg := hm.2
  rw [hcont] at hneg
  simp at hneg

/-- Every record an item contributes comes from a resolved entity of
allowed type, converted from the graph fetched for that item. -/
theorem record_origin (env : Env) (slug p : String) (it : WebhookItem)
    (a : Action) (ha : a ∈ processItemActions env slug p it)
    (r : AlgoliaRecord) (hr : r ∈ a.recordsToReindex) :
    ∃ d, mapGet (findDeliverItemWithChildrenByCodename env p it.codename it.language)
        it.codename = some d
      ∧ (d.system.type != "article" && d.system.type != "product") = false
      ∧ r = convertToAlgoliaItem
          (findDeliverItemWithChildrenByCodename env p it.codename it.language) slug d := by
  by_cases hemp : findAgoliaItems env it.codename it.language = []
  · cases hmg : mapGet (findDeliverItemWithChildrenByCodename env p it.codename it.language)
        it.codename with
    | none =>
      rw [processItemActions_empty_none env slug p it hemp hmg] at ha
      rw [List.mem_singleton.mp ha] at hr
      simp at hr
    | some d =>
      cases htype : (d.system.type != "article" && d.system.type != "product") with
      | true =>
        rw [processItemActions_empty_bad env slug p it d hemp hmg htype] at ha
        rw [List.mem_singleton.mp ha] at hr
        simp at hr
      | false =>
        cases hconv : canConvertToAlgoliaItem slug d with
        | true =>
          rw [processItemActions_empty_ok env slug p it d hemp hmg htype hconv] at ha
          rw [List.mem_singleton.mp ha] at hr
          exact ⟨d, rfl, htype, List.mem_singleton.mp hr⟩
        | false =>
          rw [processItemActions_empty_noconv env slug p it d hemp hmg htype hconv] at ha
          rw [List.mem_singleton.mp ha] at hr
          simp at hr
  · have hne : (findAgoliaItems env it.codename it.language).isEmpty = false :=
      isEmpty_false_of_ne_nil hemp
    cases hmg : mapGet (findDeliverItemWithChildrenByCodename env p it.codename it.language)
        it.codename with
    | none =>
      rw [processItemActions_nonempty_none env slug p it hne hmg] at ha
      rcases List.mem_map.mp ha with ⟨i, _, hai⟩
      rw [← hai] at hr
      simp at hr
    | some d =>
      cases htype : (d.system.type != "article" && d.system.type != "product") with
      | true =>
        rw [processItemActions_nonempty_bad env slug p it d hne hmg htype] at ha
        rcases List.mem_map.mp ha with ⟨i, _, hai⟩
        rw [← hai] at hr
        simp at hr
      | false =>
        rw [processItemActions_nonempty_ok env slug p it d hne hmg htype] at ha
        rcases List.mem_map.mp ha with ⟨i, _, hai⟩
        rw [← hai] at hr
        exact ⟨d, rfl, htype, List.mem_singleton.mp hr⟩

/-- Every object identifier an item schedules for removal is the id of
a record the index query for that item returned. -/
theorem removal_origin (env : Env) (slug p : String) (it : WebhookItem)
    (a : Action) (ha : a ∈ processItemActions env slug p it)
    (id : String) (hid : id ∈ a.objectIdsToRemove) :
    ∃ e ∈ findAgoliaItems env it.codename it.language, e.objectID = id := by
  by_cases hemp : findAgoliaItems env it.codename it.language = []
  · cases hmg : mapGet (findDeliverItemWithChildrenByCodename env p it.codename it.language)
        it.codename with
    | none =>
      rw [processItemActions_empty_none env slug p it hemp hmg] at ha
      rw [List.mem_singleton.mp ha] at hid
      simp at hid
    | some d =>
      cases htype : (d.system.type != "article" && d.system.type != "product") with
      | true =>
        rw [processItemActions_empty_bad env slug p it d hemp hmg htype] at ha
        rw [List.mem_singleton.mp ha] at hid
        simp at hid
      | false =>
        cases hconv : canConvertToAlgoliaItem slug d with
        | true =>
          rw [processItemActions_empty_ok env slug p it d hemp hmg htype hconv] at ha
          rw [List.mem_singleton.mp ha] at hid
          simp at hid
        | false =>
          rw [processItemActions_empty_noconv env slug p it d hemp hmg htype hconv] at ha
          rw [List.mem_singleton.mp ha] at hid
          simp at hid
  · have hne : (findAgoliaItems env it.codename it.language).isEmpty = false :=
      isEmpty_false_of_ne_nil hemp
    cases hmg : mapGet (findDeliverItemWithChildrenByCodename env p it.codename it.language)
        it.codename with
    | none =>
      rw [processItemActions_nonempty_none env slug p it hne hmg] at ha
      rcases List.mem_map.mp ha with ⟨i, hi, hai⟩
      rw [← hai] at hid
      have hio : id = i.objectID := List.mem_singleton.mp hid
      exact ⟨i, hi, hio.symm⟩
    | some d =>
      cases htype : (d.system.type != "article" && d.system.type != "product") with
      | true =>
        rw [processItemActions_nonempty_bad env slug p it d hne hmg htype] at ha
        rcases List.mem_map.mp ha with ⟨i, hi, hai⟩
        rw [← hai] at hid
        have hio : id = i.objectID := List.mem_singleton.mp hid
        exact ⟨i, hi, hio.symm⟩
      | false =>
        rw [processItemActions_nonempty_ok env slug p it d hne hmg htype] at ha
        rcases List.mem_map.mp ha with ⟨i, _, hai⟩
        rw [← hai] at hid
        simp at hid

/-- Every call an item performs before the merge is a read. -/
theorem processItemEvents_read {env : Env} {p : String} {it : WebhookItem}
    {e : Event} (h : e ∈ processItemEvents env p it) : e.isRead = true := by
  unfold processItemEvents at h
  rcases List.mem_cons.mp h with he | he
  · rw [he]
    rfl
  · by_cases hemp : (findAgoliaItems env it.codename it.language).isEmpty = true
    · rw [if_pos hemp] at he
      rw [List.mem_singleton.mp he]
      rfl
    · rw [if_neg hemp] at he
      rcases List.mem_map.mp he with ⟨i, _, hei⟩
      rw [← hei]
      rfl

theorem mutationsOf_def (env : Env) (slug : String) (n : Notification) :
    mutationsOf env slug n =
      { recordsToUpsert := dedupByCodename
          (((n.items.map (fun item => processItemActions env slug n.projectId item)).flatten).flatMap
            (fun a => a.recordsToReindex))
        objectIdsToRemove := dedupSet
          (((n.items.map (fun item => processItemActions env slug n.projectId item)).flatten).flatMap
            (fun a => a.objectIdsToRemove)) } := rfl

theorem isWrite_false_of_isRead {e : Event} (h : e.isRead = true) :
    e.isWrite = false := by
  unfold Event.isRead at h
  cases hw : e.isWrite with
  | false => rfl
  | true => rw [hw] at h; simp at h

theorem isRead_false_of_isWrite {e : Event} (h : e.isWrite = true) :
    e.isRead = false := by
  unfold Event.isRead
  rw [h]
  rfl

theorem isUpsert_false_of_isRead {e : Event} (h : e.isRead = true) :
    e.isUpsert = false := by
  have hw := isWrite_false_of_isRead h
  unfold Event.isWrite at hw
  cases hu : e.isUpsert with
  | false => rfl
  | true => rw [hu] at hw; simp at hw

theorem isDelete_false_of_isRead {e : Event} (h : e.isRead = true) :
    e.isDelete = false := by
  have hw := isWrite_false_of_isRead h
  unfold Event.isWrite at hw
  cases hd : e.isDelete with
  | false => rfl
  | true => rw [hd] at hw; simp at hw

theorem isWrite_of_isUpsert {e : Event} (h : e.isUpsert = true) :
    e.isWrite = true := by
  unfold Event.isWrite
  rw [h]
  rfl

theorem isWrite_of_isDelete {e : Event} (h : e.isDelete = true) :
    e.isWrite = true := by
  unfold Event.isWrite
  rw [h]
  simp

theorem isUpsert_false_of_isDelete {e : Event} (h : e.isDelete = true) :
    e.isUpsert = false := by
  cases e <;> simp [Event.isUpsert, Event.isDelete] at h ⊢

theorem isDelete_false_of_isUpsert {e : Event} (h : e.isUpsert = true) :
    e.isDelete = false := by
  cases e <;> simp [Event.isUpsert, Event.isDelete] at h ⊢

/-- A trace of reads followed by writes is recovered by filtering the
reads and then the writes. -/
theorem reads_writes_split (R W : List Event)
    (hR : ∀ e ∈ R, e.isRead = true) (hW : ∀ e ∈ W, e.isWrite = true) :
    (R ++ W).filter Event.isRead ++ (R ++ W).filter Event.isWrite = R ++ W := by
  rw [List.filter_append, List.filter_append]
  have h0 : R.filter Event.isRead = R := List.filter_eq_self.mpr hR
  have h1 : W.filter Event.isRead = [] := by
    rw [List.filter_eq_nil_iff]
    intro e he
    simp [isRead_false_of_isWrite (hW e he)]
  have h2 : R.filter Event.isWrite = [] := by
    rw [List.filter_eq_nil_iff]
    intro e he
    simp [isWrite_false_of_isRead (hR e he)]
  have h3 : W.filter Event.isWrite = W := List.filter_eq_self.mpr hW
  rw [h0, h1, h2, h3, List.append_nil, List.nil_append]

/-- Bounds on a trace made of reads, then at most one upsert batch,
then at most one delete batch. -/
theorem trace_bound_of_shape (R W1 W2 : List Event)
    (hR : ∀ e ∈ R, e.isRead = true)
    (hW1 : ∀ e ∈ W1, e.isUpsert = true) (hW2 : ∀ e ∈ W2, e.isDelete = true)
    (hl1 : W1.length ≤ 1) (hl2 : W2.length ≤ 1) :
    (R ++ (W1 ++ W2)).filter Event.isRead ++ (R ++ (W1 ++ W2)).filter Event.isWrite
        = R ++ (W1 ++ W2)
    ∧ ((R ++ (W1 ++ W2)).filter Event.isWrite).length ≤ 2
    ∧ (R ++ (W1 ++ W2)).countP Event.isUpsert ≤ 1
    ∧ (R ++ (W1 ++ W2)).countP Event.isDelete ≤ 1 := by
  have hW : ∀ e ∈ W1 ++ W2, e.isWrite = true := by
    intro e he
    rcases List.mem_append.mp he with h | h
    · exact isWrite_of_isUpsert (hW1 e h)
    · exact isWrite_of_isDelete (hW2 e h)
  refine ⟨reads_writes_split R (W1 ++ W2) hR hW, ?_, ?_, ?_⟩
  · rw [← List.countP_eq_length_filter, List.countP_append, List.countP_append]
    have c0 : R.countP Event.isWrite = 0 := by
      rw [List.countP_eq_zero]
      intro e he
      simp [isWrite_false_of_isRead (hR e he)]
    have c1 : W1.countP Event.isWrite ≤ 1 :=
      le_trans (List.countP_le_length Event.isWrite) hl1
    have c2 : W2.countP Event.isWrite ≤ 1 :=
      le_trans (List.countP_le_length Event.isWrite) hl2
    omega
  · rw [List.countP_append, List.countP_append]
    have c0 : R.countP Event.isUpsert = 0 := by
      rw [List.countP_eq_zero]
      intro e he
      simp [isUpsert_false_of_isRead (hR e he)]
    have c1 : W1.countP Event.isUpsert ≤ 1 :=
      le_trans (List.countP_le_length Event.isUpsert) hl1
    have c2 : W2.countP Event.isUpsert = 0 := by
      rw [List.countP_eq_zero]
      intro e he
      simp [isUpsert_false_of_isDelete (hW2 e he)]
    omega
  · rw [List.countP_append, List.countP_append]
    have c0 : R.countP Event.isDelete = 0 := by
      rw [List.countP_eq_zero]
      intro e he
      simp [isDelete_false_of_isRead (hR e he)]
    have c1 : W1.countP Event.isDelete = 0 := by
      rw [List.countP_eq_zero]
      intro e he
      simp [isDelete_false_of_isUpsert (hW1 e he)]
    have c2 : W2.countP Event.isDelete ≤ 1 :=
      le_trans (List.countP_le_length Event.isDelete) hl2
    omega

/-! ### Claim theorems -/

/-- C1 (counterexample): in `envC1` the index holds `eC1` (object id
`obj-1`) for codename `post-2`, the entity resolves with the allowed
type `article`, and the `url` slug element is missing, so the claim
demands that `obj-1` be scheduled for removal with no upsert; the run
instead schedules no removal and produces an upsert. -/
theorem projection_rejected_existing_not_removed_cex :
    canConvertToAlgoliaItem "url" dC1 = false
    ∧ findAgoliaItems envC1 "post-2" "en" = [eC1]
    ∧ (mutationsOf envC1 "url" nC1).objectIdsToRemove = []
    ∧ (mutationsOf envC1 "url" nC1).recordsToUpsert ≠ [] := by
  decide

/-- C1 (amended): when the index query returns existing records and the
entity resolves with an allowed type, the run re-upserts its converted
record and schedules no removal, without consulting the projection
precondition — a ProjectionRejected entity on this branch is upserted,
not treated like Ineligible (the precondition is checked only on the
empty-existing branch). -/
theorem projection_precondition_not_checked_on_existing_records
    (env : Env) (slug p c l : String) (d : DeliverItem)
    (hne : findAgoliaItems env c l ≠ [])
    (hmg : mapGet (findDeliverItemWithChildrenByCodename env p c l) c = some d)
    (htype : (d.system.type != "article" && d.system.type != "product") = false)
    (_hconv : canConvertToAlgoliaItem slug d = false) :
    mutationsOf env slug { projectId := p, items := [{ codename := c, language := l }] }
      = { recordsToUpsert :=
            [convertToAlgoliaItem (findDeliverItemWithChildrenByCodename env p c l) slug d]
          objectIdsToRemove := [] } :=
  mutationsOf_single_const_upsert env slug p ⟨c, l⟩ _ _ hne
    (processItemActions_nonempty_ok env slug p ⟨c, l⟩ d (isEmpty_false_of_ne_nil hne) hmg htype)

/-- C1 (witness): the amended claim evaluated on the concrete scenario. -/
theorem projection_precondition_not_checked_witness :
    mutationsOf envC1 "url" nC1
      = { recordsToUpsert :=
            [convertToAlgoliaItem
              (findDeliverItemWithChildrenByCodename envC1 "proj" "post-2" "en") "url" dC1]
          objectIdsToRemove := [] } :=
  projection_precondition_not_checked_on_existing_records envC1 "url" "proj" "post-2" "en" dC1
    (by decide) (by decide) (by decide) (by decide)

/-- C2 (counterexample): the run on `reqC2`, a batch of two
notifications that each produce an upsert, issues two upsert batch
calls, so the index is not mutated at most once per kind per run. -/
theorem two_notifications_two_upsert_calls_cex :
    ¬ ((handlerRun envC2 reqC2).2.countP Event.isUpsert ≤ 1) := by
  decide

/-- C2 (amended): per payload element of the normalized batch, the
trace is all index queries and content fetches first, then at most two
writes — at most one upsert batch and at most one delete batch; a run
over several payload elements repeats this per element rather than
merging once. -/
theorem notification_trace_reads_then_writes (env : Env) (slug : String)
    (n : Notification) :
    (notificationEvents env slug n).filter Event.isRead
        ++ (notificationEvents env slug n).filter Event.isWrite
      = notificationEvents env slug n
    ∧ ((notificationEvents env slug n).filter Event.isWrite).length ≤ 2
    ∧ (notificationEvents env slug n).countP Event.isUpsert ≤ 1
    ∧ (notificationEvents env slug n).countP Event.isDelete ≤ 1 := by
  have hread : ∀ e ∈ (n.items.map (fun item => processItemEvents env n.projectId item)).flatten,
      Event.isRead e = true := by
    intro e he
    rcases List.mem_flatten.mp he with ⟨L, hL, heL⟩
    rcases List.mem_map.mp hL with ⟨it, _, hLit⟩
    rw [← hLit] at heL
    exact processItemEvents_read heL
  have hT : notificationEvents env slug n
      = (n.items.map (fun item => processItemEvents env n.projectId item)).flatten
        ++ ((if (mutationsOf env slug n).recordsToUpsert.isEmpty then []
             else [Event.upsertBatch (mutationsOf env slug n).recordsToUpsert])
          ++ (if (mutationsOf env slug n).objectIdsToRemove.isEmpty then []
              else [Event.deleteBatch (mutationsOf env slug n).objectIdsToRemove])) := by
    simp only [notificationEvents]
    rw [List.append_assoc]
  rw [hT]
  apply trace_bound_of_shape _ _ _ hread
  · intro e he
    by_cases hu : (mutationsOf env slug n).recordsToUpsert.isEmpty = true
    · rw [if_pos hu] at he
      simp at he
    · rw [if_neg hu] at he
      rw [List.mem_singleton.mp he]
      rfl
  · intro e he
    by_cases hd : (mutationsOf env slug n).objectIdsToRemove.isEmpty = true
    · rw [if_pos hd] at he
      simp at he
    · rw [if_neg hd] at he
      rw [List.mem_singleton.mp he]
      rfl
  · by_cases hu : (mutationsOf env slug n).recordsToUpsert.isEmpty = true
    · rw [if_pos hu]
      simp
    · rw [if_neg hu]
      simp
  · by_cases hd : (mutationsOf env slug n).objectIdsToRemove.isEmpty = true
    · rw [if_pos hd]
      simp
    · rw [if_neg hd]
      simp

/-- C3 (counterexample): in `envC3` the batch holds the same
notification `(c, en)` twice plus one for `c2`; the merged mutation set
keeps a single upsert for codename `c`, but that record resolves to
target identifier `obj-x`, which the stale `c2` record simultaneously
schedules for removal — the claimed absence of a contradictory removal
fails. -/
theorem dedup_contradictory_removal_cex :
    nC3.items = [{ codename := "c", language := "en" },
                 { codename := "c", language := "en" },
                 { codename := "c2", language := "en" }]
    ∧ (mutationsOf envC3 "url" nC3).recordsToUpsert.map (fun r => (r.codename, r.objectID))
        = [("c", "obj-x")]
    ∧ (mutationsOf envC3 "url" nC3).objectIdsToRemove = ["obj-x"] := by
  decide

/-- C3 (amended): the merged mutation set of a payload element is
deduplicated — at most one upsert record per codename and no duplicate
object id among the removals; a removal of the upserted record target
identifier is however not prevented when a stale record of a different
codename carries the same identifier. -/
theorem merged_mutation_set_deduplicated (env : Env) (slug : String)
    (n : Notification) :
    ((mutationsOf env slug n).recordsToUpsert.map (fun r => r.codename)).Nodup
    ∧ (mutationsOf env slug n).objectIdsToRemove.Nodup :=
  ⟨dedupByCodename_codenames_nodup _, dedupSet_nodup _⟩

/-- C4 (counterexample): in `envC4` the first run on `nC4` upserts the
record for `post-1`; running the same batch again against the converged
index `envC4b` produces the same non-empty mutation set instead of the
empty one the claim demands. -/
theorem second_run_mutation_set_not_empty_cex :
    mutationsOf envC4b "url" nC4
      ≠ { recordsToUpsert := [], objectIdsToRemove := [] } := by
  decide

/-- C4 (amended): running the reconciler a second time on the same
single-notification batch against the index converged by the first run
leaves that index unchanged — the second mutation set is either empty
or a re-upsert of the identical record, so applying it is a no-op; the
second mutation set itself need not be empty. -/
theorem second_run_on_converged_index_is_noop (env : Env) (slug p c l : String) :
    applyMutationSet
      (applyMutationSet env.indexState
        (mutationsOf env slug { projectId := p, items := [{ codename := c, language := l }] }))
      (mutationsOf
        { env with
          indexState :=
            applyMutationSet env.indexState
              (mutationsOf env slug
                { projectId := p, items := [{ codename := c, language := l }] }) }
        slug { projectId := p, items := [{ codename := c, language := l }] })
      = applyMutationSet env.indexState
          (mutationsOf env slug { projectId := p, items := [{ codename := c, language := l }] }) := by
  rcases mutationsOf_single_cases env slug p c l with
    h1 | ⟨d, hmg, htype, h1⟩ | ⟨hgone, hsf, hne, h1⟩
  · rw [h1, applyMutationSet_empty]
    have heta : ({ env with indexState := env.indexState } : Env) = env := rfl
    rw [heta, h1, applyMutationSet_empty]
  · rw [h1, applyMutationSet_single_upsert]
    rcases mutationsOf_single_cases
        { env with
          indexState := upsertOne env.indexState
            (convertToAlgoliaItem (findDeliverItemWithChildrenByCodename env p c l) slug d) }
        slug p c l with h2 | ⟨d2, hmg2, htype2, h2⟩ | ⟨hgone2, hsf2, hne2, h2⟩
    · rw [h2, applyMutationSet_empty]
    · have hgg : findDeliverItemWithChildrenByCodename
          { env with
            indexState := upsertOne env.indexState
              (convertToAlgoliaItem (findDeliverItemWithChildrenByCodename env p c l) slug d) }
          p c l = findDeliverItemWithChildrenByCodename env p c l := rfl
      rw [hgg] at hmg2 h2
      rw [hmg] at hmg2
      have hd : d = d2 := Option.some.inj hmg2
      subst hd
      rw [h2, applyMutationSet_single_upsert]
      exact upsertOne_idem env.indexState _
    · have hgg : findDeliverItemWithChildrenByCodename
          { env with
            indexState := upsertOne env.indexState
              (convertToAlgoliaItem (findDeliverItemWithChildrenByCodename env p c l) slug d) }
          p c l = findDeliverItemWithChildrenByCodename env p c l := rfl
      rw [hgg] at hgone2
      rcases hgone2 with hnone | ⟨d2, hmg2, htype2⟩
      · rw [hmg] at hnone
        cases hnone
      · rw [hmg] at hmg2
        have hd : d = d2 := Option.some.inj hmg2
        subst hd
        rw [htype] at htype2
        cases htype2
  · rw [h1, applyMutationSet_deletes]
    have hfa2 := findAgolia_after_removes env c l hsf
    rcases mutationsOf_single_cases
        { env with
          indexState :=
            applyDeletes env.indexState
              (dedupSet ((findAgoliaItems env c l).map (fun i => i.objectID))) }
        slug p c l with h2 | ⟨d2, hmg2, htype2, h2⟩ | ⟨hgone2, hsf2, hne2, h2⟩
    · rw [h2, applyMutationSet_empty]
    · have hgg : findDeliverItemWithChildrenByCodename
          { env with
            indexState :=
              applyDeletes env.indexState
                (dedupSet ((findAgoliaItems env c l).map (fun i => i.objectID))) }
          p c l = findDeliverItemWithChildrenByCodename env p c l := rfl
      rw [hgg] at hmg2
      rcases hgone with hnone | ⟨d, hmgd, htyped⟩
      · rw [hnone] at hmg2
        cases hmg2
      · rw [hmgd] at hmg2
        have hd : d = d2 := Option.some.inj hmg2
        subst hd
        rw [htyped] at htype2
        cases htype2
    · exact absurd hfa2 hne2

/-- C5: when the index holds records for a codename whose source entity
is gone (the fetch resolves nothing for it), the single-notification
run upserts nothing and schedules every existing record object id for
removal. -/
theorem deleted_entity_existing_records_removed
    (env : Env) (slug p c l : String)
    (hne : findAgoliaItems env c l ≠ [])
    (hmg : mapGet (findDeliverItemWithChildrenByCodename env p c l) c = none) :
    (mutationsOf env slug { projectId := p, items := [{ codename := c, language := l }] }).recordsToUpsert
        = []
    ∧ ((findAgoliaItems env c l).all (fun e =>
        (mutationsOf env slug
          { projectId := p, items := [{ codename := c, language := l }] }).objectIdsToRemove.contains
            e.objectID)) = true := by
  have hpia := processItemActions_nonempty_none env slug p ⟨c, l⟩
    (isEmpty_false_of_ne_nil hne) hmg
  have hms := mutationsOf_single_removes env slug p ⟨c, l⟩ _ hpia
  rw [hms]
  refine ⟨rfl, ?_⟩
  rw [List.all_eq_true]
  intro e he
  exact List.elem_iff.mpr (mem_dedupSet.mpr (List.mem_map.mpr ⟨e, he, rfl⟩))

/-- C5 (witness): the spec scenario — `post-2` indexed under object id
`abc123`, fetch resolves nothing — removes `abc123` and upserts
nothing. -/
theorem deleted_entity_existing_records_removed_witness :
    findAgoliaItems envC5 "post-2" "en" ≠ []
    ∧ (mutationsOf envC5 "url"
        { projectId := "proj", items := [{ codename := "post-2", language := "en" }] }).recordsToUpsert
          = []
    ∧ ((findAgoliaItems envC5 "post-2" "en").all (fun e =>
        (mutationsOf envC5 "url"
          { projectId := "proj", items := [{ codename := "post-2", language := "en" }] }).objectIdsToRemove.contains
            e.objectID)) = true :=
  ⟨by decide,
   (deleted_entity_existing_records_removed envC5 "url" "proj" "post-2" "en"
      (by decide) (by decide)).1,
   (deleted_entity_existing_records_removed envC5 "url" "proj" "post-2" "en"
      (by decide) (by decide)).2⟩

/-- C6: when every way codename `X` resolves yields an entity whose
type is outside the allow-list, no run ever upserts a record with
codename `X`, whether or not it was previously indexed. -/
theorem type_gated_entity_never_upserted (env : Env) (slug : String)
    (n : Notification) (X : String)
    (hX : ∀ p l d,
      mapGet (findDeliverItemWithChildrenByCodename env p X l) X = some d →
      (d.system.type != "article" && d.system.type != "product") = true) :
    ((mutationsOf env slug n).recordsToUpsert.all (fun r => r.codename != X)) = true := by
  rw [List.all_eq_true]
  intro r hr
  rw [mutationsOf_def] at hr
  rcases List.mem_flatMap.mp (mem_dedupByCodename hr) with ⟨a, ha, hra⟩
  rcases List.mem_flatten.mp ha with ⟨As, hAs, haAs⟩
  rcases List.mem_map.mp hAs with ⟨it, hit, hAsit⟩
  rw [← hAsit] at haAs
  rcases record_origin env slug n.projectId it a haAs r hra with ⟨d, hmg, htype, hre⟩
  have hrc : r.codename = it.codename := by
    rw [hre]
    exact mapGet_codename hmg
  rw [bne_iff_ne]
  intro hxeq
  have hitX : it.codename = X := hrc.symm.trans hxeq
  rw [hitX] at hmg
  have hbad := hX n.projectId it.language d hmg
  rw [htype] at hbad
  cases hbad

/-- C6 (witness): the entity for `x` is a `blogpost`, so the run (whose
index holds a stale record for `x`) upserts nothing for `x`. -/
theorem type_gated_entity_never_upserted_witness :
    ((mutationsOf envC6 "url" nC6).recordsToUpsert.all (fun r => r.codename != "x")) = true :=
  type_gated_entity_never_upserted envC6 "url" nC6 "x" (by
    intro p l d h
    have hg : mapGet (findDeliverItemWithChildrenByCodename envC6 p "x" l) "x"
        = some dC6 := rfl
    rw [hg] at h
    cases Option.some.inj h
    decide)

/-- C7: index query and content fetch failures degrade locally: a
throwing search yields the empty record list, a failing fetch yields
the empty graph, and changing the collaborators at one `(codename,
language)` point leaves the actions and the trace of every other item
unchanged, so the rest of the batch is unaffected. -/
theorem collaborator_failures_degrade_locally :
    (∀ (env : Env) (c l : String), env.searchFails c l = true →
        findAgoliaItems env c l = [])
    ∧ (∀ (env : Env) (p c l : String), env.fetch p c l = none →
        findDeliverItemWithChildrenByCodename env p c l = [])
    ∧ (∀ (env env' : Env) (slug p c0 l0 : String) (it : WebhookItem),
        env.indexState = env'.indexState →
        (∀ q c l, ¬(c = c0 ∧ l = l0) → env.fetch q c l = env'.fetch q c l) →
        (∀ c l, ¬(c = c0 ∧ l = l0) → env.searchFails c l = env'.searchFails c l) →
        ¬(it.codename = c0 ∧ it.language = l0) →
        processItemActions env slug p it = processItemActions env' slug p it
          ∧ processItemEvents env p it = processItemEvents env' p it) := by
  refine ⟨?_, ?_, ?_⟩
  · intro env c l h
    exact findAgoliaItems_of_fails h
  · intro env p c l h
    unfold findDeliverItemWithChildrenByCodename
    rw [h]
  · intro env env' slug p c0 l0 it hidx hf hs hit
    have hfa : findAgoliaItems env it.codename it.language
        = findAgoliaItems env' it.codename it.language := by
      unfold findAgoliaItems
      rw [hs it.codename it.language hit, hidx]
    have hfd : findDeliverItemWithChildrenByCodename env p it.codename it.language
        = findDeliverItemWithChildrenByCodename env' p it.codename it.language := by
      unfold findDeliverItemWithChildrenByCodename
      rw [hf p it.codename it.language hit]
    constructor
    · by_cases hemp : findAgoliaItems env' it.codename it.language = []
      · have hemp1 : findAgoliaItems env it.codename it.language = [] := by
          rw [hfa]
          exact hemp
        cases hmg : mapGet
            (findDeliverItemWithChildrenByCodename env' p it.codename it.language)
            it.codename with
        | none =>
          have hmg1 : mapGet
              (findDeliverItemWithChildrenByCodename env p it.codename it.language)
              it.codename = none := by
            rw [hfd]
            exact hmg
          rw [processItemActions_empty_none env slug p it hemp1 hmg1,
            processItemActions_empty_none env' slug p it hemp hmg]
        | some d =>
          have hmg1 : mapGet
              (findDeliverItemWithChildrenByCodename env p it.codename it.language)
              it.codename = some d := by
            rw [hfd]
            exact hmg
          cases htype : (d.system.type != "article" && d.system.type != "product") with
          | true =>
            rw [processItemActions_empty_bad env slug p it d hemp1 hmg1 htype,
              processItemActions_empty_bad env' slug p it d hemp hmg htype]
          | false =>
            cases hconv : canConvertToAlgoliaItem slug d with
            | true =>
              rw [processItemActions_empty_ok env slug p it d hemp1 hmg1 htype hconv,
                processItemActions_empty_ok env' slug p it d hemp hmg htype hconv, hfd]
            | false =>
              rw [processItemActions_empty_noconv env slug p it d hemp1 hmg1 htype hconv,
                processItemActions_empty_noconv env' slug p it d hemp hmg htype hconv]
      · have hne2 : (findAgoliaItems env' it.codename it.language).isEmpty = false :=
          isEmpty_false_of_ne_nil hemp
        have hne1 : (findAgoliaItems env it.codename it.language).isEmpty = false := by
          rw [hfa]
          exact hne2
        cases hmg : mapGet
            (findDeliverItemWithChildrenByCodename env' p it.codename it.language)
            it.codename with
        | none =>
          have hmg1 : mapGet
              (findDeliverItemWithChildrenByCodename env p it.codename it.language)
              it.codename = none := by
            rw [hfd]
            exact hmg
          rw [processItemActions_nonempty_none env slug p it hne1 hmg1,
            processItemActions_nonempty_none env' slug p it hne2 hmg, hfa]
        | some d =>
          have hmg1 : mapGet
              (findDeliverItemWithChildrenByCodename env p it.codename it.language)
              it.codename = some d := by
            rw [hfd]
            exact hmg
          cases htype : (d.system.type != "article" && d.system.type != "product") with
          | true =>
            rw [processItemActions_nonempty_bad env slug p it d hne1 hmg1 htype,
              processItemActions_nonempty_bad env' slug p it d hne2 hmg htype, hfa]
          | false =>
            rw [processItemActions_nonempty_ok env slug p it d hne1 hmg1 htype,
              processItemActions_nonempty_ok env' slug p it d hne2 hmg htype, hfa, hfd]
    · unfold processItemEvents
      rw [hfa]

/-- C7 (witness): healing a search failure at `(bad, en)` leaves the
processing of the unrelated item `(good, en)` unchanged, and the
failing collaborators return empty results. -/
theorem collaborator_failures_degrade_locally_witness :
    findAgoliaItems envC7fail "x" "en" = []
    ∧ findDeliverItemWithChildrenByCodename envC7fail "p" "x" "en" = []
    ∧ processItemActions envC7a "url" "p" { codename := "good", language := "en" }
        = processItemActions envC7b "url" "p" { codename := "good", language := "en" }
    ∧ processItemEvents envC7a "p" { codename := "good", language := "en" }
        = processItemEvents envC7b "p" { codename := "good", language := "en" } := by
  have hs : ∀ c l : String, ¬(c = "bad" ∧ l = "en") →
      envC7a.searchFails c l = envC7b.searchFails c l := by
    intro c l h
    show (c == "bad" && l == "en") = false
    by_cases hc : c = "bad"
    · by_cases hl : l = "en"
      · exact absurd ⟨hc, hl⟩ h
      · have hlf : (l == "en") = false := beq_eq_false_iff_ne.mpr hl
        rw [hlf, Bool.and_false]
    · have hcf : (c == "bad") = false := beq_eq_false_iff_ne.mpr hc
      rw [hcf, Bool.false_and]
  have hmain := collaborator_failures_degrade_locally.2.2 envC7a envC7b "url" "p"
    "bad" "en" ⟨"good", "en"⟩ rfl (fun _ _ _ _ => rfl) hs (by decide)
  exact ⟨collaborator_failures_degrade_locally.1 envC7fail "x" "en" rfl,
    collaborator_failures_degrade_locally.2.1 envC7fail "p" "x" "en" rfl,
    hmain.1, hmain.2⟩

/-- C8: on a notification whose index query returns nothing, the run
fetches the graph once and classifies: a resolved entity of allowed
type with the slug present yields exactly one upsert and no removals;
a missing entity, a disallowed type, or a failing slug precondition
yields no removal and no record. -/
theorem fresh_item_classified_once (env : Env) (slug p : String) (it : WebhookItem)
    (hfa : findAgoliaItems env it.codename it.language = []) :
    (∀ d, mapGet (findDeliverItemWithChildrenByCodename env p it.codename it.language)
          it.codename = some d →
        (d.system.type != "article" && d.system.type != "product") = false →
        canConvertToAlgoliaItem slug d = true →
        mutationsOf env slug { projectId := p, items := [it] }
          = { recordsToUpsert :=
                [convertToAlgoliaItem
                  (findDeliverItemWithChildrenByCodename env p it.codename it.language)
                  slug d]
              objectIdsToRemove := [] })
    ∧ (mapGet (findDeliverItemWithChildrenByCodename env p it.codename it.language)
          it.codename = none →
        mutationsOf env slug { projectId := p, items := [it] }
          = { recordsToUpsert := [], objectIdsToRemove := [] })
    ∧ (∀ d, mapGet (findDeliverItemWithChildrenByCodename env p it.codename it.language)
          it.codename = some d →
        ((d.system.type != "article" && d.system.type != "product") = true
          ∨ canConvertToAlgoliaItem slug d = false) →
        mutationsOf env slug { projectId := p, items := [it] }
          = { recordsToUpsert := [], objectIdsToRemove := [] }) := by
  refine ⟨?_, ?_, ?_⟩
  · intro d hmg htype hconv
    exact mutationsOf_single_upsert env slug p it _
      (processItemActions_empty_ok env slug p it d hfa hmg htype hconv)
  · intro hmg
    exact mutationsOf_single_empty env slug p it
      (processItemActions_empty_none env slug p it hfa hmg)
  · intro d hmg hcase
    rcases hcase with htype | hconv
    · exact mutationsOf_single_empty env slug p it
        (processItemActions_empty_bad env slug p it d hfa hmg htype)
    · cases htype : (d.system.type != "article" && d.system.type != "product") with
      | true =>
        exact mutationsOf_single_empty env slug p it
          (processItemActions_empty_bad env slug p it d hfa hmg htype)
      | false =>
        exact mutationsOf_single_empty env slug p it
          (processItemActions_empty_noconv env slug p it d hfa hmg htype hconv)

/-- C8 (witness): the three outcomes on concrete fresh items — an
eligible article is upserted once, a missing entity yields nothing, an
`author` entity yields nothing. -/
theorem fresh_item_classified_once_witness :
    mutationsOf envC8a "url" { projectId := "p", items := [{ codename := "post-1", language := "en" }] }
        = { recordsToUpsert :=
              [convertToAlgoliaItem
                (findDeliverItemWithChildrenByCodename envC8a "p" "post-1" "en") "url" dC8]
            objectIdsToRemove := [] }
    ∧ mutationsOf envC8b "url" { projectId := "p", items := [{ codename := "post-1", language := "en" }] }
        = { recordsToUpsert := [], objectIdsToRemove := [] }
    ∧ mutationsOf envC8c "url" { projectId := "p", items := [{ codename := "post-1", language := "en" }] }
        = { recordsToUpsert := [], objectIdsToRemove := [] } :=
  ⟨(fresh_item_classified_once envC8a "url" "p" ⟨"post-1", "en"⟩ (by decide)).1 dC8
      (by decide) (by decide) (by decide),
   (fresh_item_classified_once envC8b "url" "p" ⟨"post-1", "en"⟩ (by decide)).2.1
      (by decide),
   (fresh_item_classified_once envC8c "url" "p" ⟨"post-1", "en"⟩ (by decide)).2.2 dC8c
      (by decide) (Or.inl (by decide))⟩

/-- C9: a request with a missing body or invalid query parameters is
rejected before any work: the trace of external calls is empty (no
query, fetch or write happens, so the index is untouched) and the
response is an error status, never 200. -/
theorem invalid_request_rejected_without_work (env : Env) (req : HttpRequest)
    (h : req.body = none ∨ areValidQueryParams req.queryStringParameters = false) :
    (handlerRun env req).2 = [] ∧ (handlerRun env req).1.statusCode ≠ 200 := by
  cases hmm : (req.httpMethod != "POST") with
  | true =>
    refine ⟨?_, ?_⟩ <;> simp [handlerRun, hmm]
  | false =>
    rcases h with hb | hq
    · refine ⟨?_, ?_⟩ <;> simp [handlerRun, hmm, hb]
    · cases hbody : req.body with
      | none =>
        refine ⟨?_, ?_⟩ <;> simp [handlerRun, hmm, hbody]
      | some b =>
        cases hsk : env.kontentSecretPresent <;>
          cases hak : env.algoliaApiKeyPresent <;>
            cases hsh : req.signatureHeaderPresent <;>
              cases hsv : env.signatureValid <;>
                (refine ⟨?_, ?_⟩ <;> simp [handlerRun, hmm, hbody, hsk, hak, hsh, hsv, hq])

/-- C9 (witness): a POST request with valid parameters but no body is
rejected with no external calls. -/
theorem invalid_request_rejected_without_work_witness :
    reqC9.body = none
    ∧ (handlerRun envC9 reqC9).2 = []
    ∧ (handlerRun envC9 reqC9).1.statusCode ≠ 200 :=
  ⟨rfl,
   (invalid_request_rejected_without_work envC9 reqC9 (Or.inl rfl)).1,
   (invalid_request_rejected_without_work envC9 reqC9 (Or.inl rfl)).2⟩

/-- C10: every object id inside a delete batch of a run trace is the
object id of a record some index query of that same run returned — the
run never removes an identifier it did not find currently indexed. -/
theorem removed_ids_from_index_queries (env : Env) (slug : String)
    (notifications : List Notification) (ids : List String) (id : String)
    (hdel : Event.deleteBatch ids ∈ runEvents env slug notifications)
    (hid : id ∈ ids) :
    id ∈ allQueriedObjectIDs env notifications := by
  unfold runEvents at hdel
  rcases List.mem_flatten.mp hdel with ⟨T, hT, heT⟩
  rcases List.mem_map.mp hT with ⟨n, hn, hTn⟩
  rw [← hTn] at heT
  simp only [notificationEvents] at heT
  rcases List.mem_append.mp heT with h12 | h3
  · rcases List.mem_append.mp h12 with h1 | h2
    · exfalso
      rcases List.mem_flatten.mp h1 with ⟨L, hL, heL⟩
      rcases List.mem_map.mp hL with ⟨it, _, hLit⟩
      rw [← hLit] at heL
      have hflag := processItemEvents_read heL
      simp [Event.isRead, Event.isWrite, Event.isUpsert, Event.isDelete] at hflag
    · exfalso
      by_cases hu : (mutationsOf env slug n).recordsToUpsert.isEmpty = true
      · rw [if_pos hu] at h2
        simp at h2
      · rw [if_neg hu] at h2
        exact Event.noConfusion (List.mem_singleton.mp h2)
  · by_cases hd : (mutationsOf env slug n).objectIdsToRemove.isEmpty = true
    · rw [if_pos hd] at h3
      simp at h3
    · rw [if_neg hd] at h3
      have hids : ids = (mutationsOf env slug n).objectIdsToRemove :=
        Event.deleteBatch.inj (List.mem_singleton.mp h3)
      rw [hids, mutationsOf_def] at hid
      rcases List.mem_flatMap.mp (mem_dedupSet.mp hid) with ⟨a, ha, hida⟩
      rcases List.mem_flatten.mp ha with ⟨As, hAs, haAs⟩
      rcases List.mem_map.mp hAs with ⟨it, hit, hAsit⟩
      rw [← hAsit] at haAs
      rcases removal_origin env slug n.projectId it a haAs id hida with ⟨e, he, heid⟩
      unfold allQueriedObjectIDs
      apply List.mem_map.mpr
      refine ⟨e, ?_, heid⟩
      apply List.mem_flatMap.mpr
      refine ⟨it, ?_, he⟩
      apply List.mem_flatMap.mpr
      exact ⟨n, hn, hit⟩

/-- C10 (witness): the concrete run deletes `o`, which the query for
`(x, en)` had returned. -/
theorem removed_ids_from_index_queries_witness :
    Event.deleteBatch ["o"] ∈ runEvents envC10 "url" [nC10]
    ∧ "o" ∈ allQueriedObjectIDs envC10 [nC10] :=
  ⟨by decide,
   removed_ids_from_index_queries envC10 "url" [nC10] ["o"] "o" (by decide) (by decide)⟩

end AlgoliaWebhook
